import Mathlib

set_option maxRecDepth 20000

/-!
Shallow embedding of the capnp-nonblock codec (src/lib.rs, src/buf.rs).

Machine integers are modelled as `Nat` with explicit `% 2^w` where the Rust
code truncates or wraps (u8, u32, u64).  Byte slices are `List Nat`; every
value read through `le_u32` is reduced `% 256` per byte, matching the `u8`
element type.  Fallible operations return explicit outcome constructors.
Release-mode semantics (wrapping) are used for the unchecked u64 arithmetic
in `traversal_limit_in_words * 8`.
-/

/-- I/O error kinds distinguished by the code (`std::io::ErrorKind`). -/
inductive ErrKind where
  | wouldBlock
  | interrupted
  | unexpectedEof
  | writeZero
  | other
deriving DecidableEq

/-- The outcome of a fallible, possibly-scripted operation.  `stuck` marks a
transport script that ran out or violated the `Read`/`Write` contract;
`assertFail` marks a Rust `assert!`/slice-bound panic; `fuelOut` marks
exhaustion of the fuel that bounds the (source-level `loop`) iteration. -/
inductive Outcome where
  | ok
  | ioerr (k : ErrKind)
  | stuck
  | assertFail
  | fuelOut
deriving DecidableEq

/-- Little-endian 4-byte encoding of a `u32` value (byteorder `write_u32`). -/
def w32le (n : Nat) : List Nat :=
  [n % 256, n / 256 % 256, n / 65536 % 256, n / 16777216 % 256]

/-- Little-endian 8-byte encoding of one 8-byte word (`capnp::Word`). -/
def w64le (n : Nat) : List Nat :=
  [n % 256, n / 256 % 256, n / 65536 % 256, n / 16777216 % 256,
   n / 4294967296 % 256, n / 1099511627776 % 256,
   n / 281474976710656 % 256, n / 72057594037927936 % 256]

/-- `nom::le_u32`: reads a little-endian u32 from the front of the input;
`none` models `Incomplete(Needed::Size(4))` on short input.  Each byte is
taken `% 256` because the source slice has element type `u8`. -/
def le_u32 : List Nat → Option (Nat × List Nat)
  | b0 :: b1 :: b2 :: b3 :: rest =>
      some (b0 % 256 + 256 * (b1 % 256) + 65536 * (b2 % 256) +
              16777216 * (b3 % 256), rest)
  | _ => none

/-- Result of `parse_segment_table` (`nom::IResult` specialised to this use):
`Done rest`, `Error code` (code = adjusted segment count, a u32), or
`Incomplete needed` with `needed` the `Needed::Size` hint (always 4 here). -/
inductive PResult where
  | Done (rest : List Nat)
  | Error (code : Nat)
  | Incomplete (needed : Nat)
deriving DecidableEq

/-- Whether a `PResult` is the `Error` variant. -/
def PResult.isError : PResult → Bool
  | .Error _ => true
  | _ => false

/-- The `for _ in 0..segment_count` loop of `parse_segment_table`
(src/lib.rs:332-337): reads `count` little-endian u32 word-lengths, pushing
`len * 8` (bytes) onto `lengths` as it goes.  Returns `none` (incomplete)
if the input runs short; the pushes done so far persist, as in the source
where the `Vec` is mutated in place. -/
def parse_lengths : Nat → List Nat → List Nat → Option (List Nat) × List Nat
  | 0, i, lengths => (some i, lengths)
  | n + 1, i, lengths =>
    match le_u32 i with
    | none => (none, lengths)
    | some (len, i2) => parse_lengths n i2 (lengths ++ [len * 8])

/-- `parse_segment_table` (src/lib.rs:325-348): reads the on-wire count,
adds one with u32 wrapping, validates `1 ≤ count < 512`, reads `count`
word-lengths (pushed as byte lengths), and requires a 4-byte pad word when
the count is even.  Returns the result together with the final contents of
the `lengths` vector. -/
def parse_segment_table (input : List Nat) (lengths : List Nat) :
    PResult × List Nat :=
  match le_u32 input with
  | none => (.Incomplete 4, lengths)
  | some (raw, i) =>
    let c := (raw + 1) % 4294967296
    if 512 ≤ c ∨ c = 0 then (.Error c, lengths)
    else
      match parse_lengths c i lengths with
      | (none, lengths2) => (.Incomplete 4, lengths2)
      | (some i2, lengths2) =>
        if c % 2 = 0 then
          if i2.length < 4 then (.Incomplete 4, lengths2)
          else (.Done (i2.drop 4), lengths2)
        else (.Done i2, lengths2)

/-- The per-segment length fields of the serialized table: for each segment
its word count as a little-endian u32 (`segment.len() as u32` truncates,
hence the `% 2^32`). -/
def segment_lengths_bytes : List (List Nat) → List Nat
  | [] => []
  | s :: rest => w32le (s.length % 4294967296) ++ segment_lengths_bytes rest

/-- `serialize_segment_table` (src/lib.rs:191-207): little-endian
`count - 1` (computed on u32, so truncated then wrapped), one u32
word-length per segment, and a 4-byte zero pad iff the count is even.
A segment is modelled as its list of words (`List Nat`); only lengths
matter for the table. -/
def serialize_segment_table (segments : List (List Nat)) : List Nat :=
  w32le ((segments.length % 4294967296 + (4294967296 - 1)) % 4294967296) ++
  segment_lengths_bytes segments ++
  (if segments.length % 2 = 0 then [0, 0, 0, 0] else [])

/-! ## The slab allocator (src/buf.rs) -/

/-- Payload length of `RawBuf::new(len)` (src/buf.rs:179-195): the
allocation is `max(8, len)` bytes of which the first 8 hold the reference
count, leaving `max(8, len) - 8` payload bytes. -/
def rawBufLen (len : Nat) : Nat := max 8 len - 8

/-- A `MutBuf` (src/buf.rs:17-20): `cap` is the payload capacity
(`raw.len()`), `data` the committed bytes, so the write offset is
`data.length`. -/
structure MutBuf where
  cap : Nat
  data : List Nat
deriving DecidableEq

/-- `MutBuf::with_capacity` (src/buf.rs:44-49). -/
def MutBuf.with_capacity (cap : Nat) : MutBuf := ⟨rawBufLen cap, []⟩

/-- `MutBuf::new` (src/buf.rs:40-42): `BUF_SIZE = 4096`. -/
def MutBuf.new : MutBuf := MutBuf.with_capacity 4096

/-- `MutBuf::write` (src/buf.rs:23-32): copies
`min(bytes.len, cap - offset)` bytes at the write offset and returns the
copied count with the updated buffer. -/
def MutBuf.write (b : MutBuf) (bytes : List Nat) : Nat × MutBuf :=
  let count := min bytes.length (b.cap - b.data.length)
  (count, ⟨b.cap, b.data ++ bytes.take count⟩)

/-- One scripted response of an `io::Read` source: a chunk of bytes
(empty chunk = EOF, i.e. `read` returned 0) or an I/O error. -/
inductive ReadEv where
  | chunk (bytes : List Nat)
  | err (k : ErrKind)
deriving DecidableEq

/-- The `while self.offset < target_offset` loop of `MutBuf::fill`
(src/buf.rs:71-81).  Each read targets the whole uncommitted tail, so a
chunk may overshoot `target`; a chunk larger than the remaining capacity
violates the `Read` contract (`stuck`).  Note the source propagates every
I/O error with `try!` - there is no `Interrupted` retry arm here. -/
def fillLoop (target : Nat) : List ReadEv → MutBuf → Outcome × MutBuf × List ReadEv
  | script, b =>
    if target ≤ b.data.length then (.ok, b, script)
    else
      match script with
      | [] => (.stuck, b, [])
      | .chunk bytes :: rest =>
        if bytes.length = 0 then (.ioerr .unexpectedEof, b, rest)
        else if bytes.length ≤ b.cap - b.data.length then
          fillLoop target rest ⟨b.cap, b.data ++ bytes⟩
        else (.stuck, b, rest)
      | .err k :: rest => (.ioerr k, b, rest)

/-- `MutBuf::fill` (src/buf.rs:64-84): asserts that the remaining capacity
is at least `amount`, then loops reading until `amount` additional bytes
are committed. -/
def MutBuf.fill (b : MutBuf) (script : List ReadEv) (amount : Nat) :
    Outcome × MutBuf × List ReadEv :=
  if b.cap - b.data.length < amount then (.assertFail, b, script)
  else fillLoop (b.data.length + amount) script b

/-- Result of `MutBuf::fill_or_replace`: outcome, updated buffer, updated
`from` cursor (passed by `&mut` in the source), and remaining script. -/
structure FRRes where
  out : Outcome
  buf : MutBuf
  fromOff : Nat
  script : List ReadEv
deriving DecidableEq

/-- Packs a `fill` result and the (possibly reset) `from` cursor into an
`FRRes`. -/
def mkFR : Outcome × MutBuf × List ReadEv → Nat → FRRes
  | (o, b, sc), f => ⟨o, b, f, sc⟩

/-- `MutBuf::fill_or_replace` (src/buf.rs:91-115): if fewer than `amount`
bytes are buffered past `fromOff`, and the remaining capacity cannot hold
the shortfall, replace the buffer with a fresh
`MutBuf::with_capacity(max(4096, amount + 8))`, copy the unread tail to
its front and reset `fromOff` to 0; then fill the shortfall. -/
def MutBuf.fill_or_replace (b : MutBuf) (script : List ReadEv)
    (fromOff : Nat) (amount : Nat) : FRRes :=
  if b.data.length < fromOff then ⟨.assertFail, b, fromOff, script⟩
  else if amount ≤ b.data.length - fromOff then ⟨.ok, b, fromOff, script⟩
  else if b.cap - b.data.length < amount - (b.data.length - fromOff) then
    mkFR
      ((((MutBuf.with_capacity (max 4096 (amount + 8))).write
          (b.data.drop fromOff)).2).fill script
        (amount - (b.data.length - fromOff)))
      0
  else
    mkFR (b.fill script (amount - (b.data.length - fromOff))) fromOff

/-! ## The read path of `MessageStream` (src/lib.rs) -/

/-- `MessageStream::read_segment` (src/lib.rs:159-170): fill at least `len`
bytes past `bufOffset`, take the view `buf.buf(bufOffset, len)` (whose
bound `offset + len ≤ write offset` is the source's assert), and advance
`bufOffset` by `len`.  Returns (outcome, view bytes, buffer, offset,
script); the view component is meaningful only on `.ok`. -/
def read_segment (b : MutBuf) (script : List ReadEv) (bufOffset : Nat)
    (len : Nat) : Outcome × List Nat × MutBuf × Nat × List ReadEv :=
  let r := b.fill_or_replace script bufOffset len
  match r.out with
  | .ok =>
    if r.fromOff + len ≤ r.buf.data.length then
      (.ok, (r.buf.data.drop r.fromOff).take len, r.buf, r.fromOff + len, r.script)
    else (.assertFail, [], r.buf, r.fromOff, r.script)
  | o => (o, [], r.buf, r.fromOff, r.script)

/-- The read-side state of `MessageStream` used by the segment loop:
current buffer, read offset, the `remaining_segments` stack (top of stack
is the *last* element, as in the source), and the accumulated segment
views. -/
structure RMState where
  buf : MutBuf
  buf_offset : Nat
  remaining_segments : List Nat
  segments : List (List Nat)
deriving DecidableEq

/-- One iteration of the `while let Some(&segment_len)` loop of
`read_message` (src/lib.rs:177-182): read the segment at the top of the
stack, push the view, and only then pop the stack.  On any error the
stack and the accumulated segments are left untouched. -/
def read_message_step (st : RMState) (script : List ReadEv) (len : Nat) :
    Outcome × RMState × List ReadEv :=
  let r := read_segment st.buf script st.buf_offset len
  if r.1 = .ok then
    (.ok,
     { st with buf := r.2.2.1, buf_offset := r.2.2.2.1,
               segments := st.segments ++ [r.2.1],
               remaining_segments := st.remaining_segments.dropLast },
     r.2.2.2.2)
  else (r.1, { st with buf := r.2.2.1, buf_offset := r.2.2.2.1 }, r.2.2.2.2)

/-- The full segment loop of `read_message`, fuelled (the source loop
terminates because each successful step pops the stack). -/
def read_message_loop : Nat → RMState → List ReadEv → Outcome × RMState × List ReadEv
  | 0, st, script => (.fuelOut, st, script)
  | fuel + 1, st, script =>
    match st.remaining_segments.getLast? with
    | none => (.ok, st, script)
    | some len =>
      match read_message_step st script len with
      | (.ok, st2, script2) => read_message_loop fuel st2 script2
      | r => r

/-! ## The total-length check of `read_segment_table` (src/lib.rs:143-156) -/

/-- The checked u64 sum of the segment byte-lengths (src/lib.rs:145-148):
`fold(Some(0u64), |acc, &len| acc.and_then(|n| n.checked_add(len)))`. -/
def checkedSumU64 (lengths : List Nat) : Option Nat :=
  lengths.foldl
    (fun acc len => acc.bind fun n =>
      if n + len < 18446744073709551616 then some (n + len) else none)
    (some 0)

/-- Outcome of the tail of `read_segment_table` after a successful parse:
either the reversed stack and advanced offset, or the fatal decode error
(the source's message is the string "message is too large"). -/
inductive RstOut where
  | accept (remaining : List Nat) (buf_offset : Nat)
  | tooLarge
deriving DecidableEq

/-- Lines 143-156 of `read_segment_table`, given the `lengths` produced by
a successful `parse_segment_table`: advance the read offset over the
header (`(1 + len/2) * 8` bytes), compute the checked total, compare it
against `traversal_limit_in_words * 8` (u64 multiplication, which wraps),
and reverse the stack.  Overflow of the checked sum means rejection. -/
def rst_after_parse (lengths : List Nat) (bufOffset : Nat) (limit : Nat) : RstOut :=
  let bufOffset := bufOffset + (1 + lengths.length / 2) * 8
  match checkedSumU64 lengths with
  | some len =>
    if len ≤ limit * 8 % 18446744073709551616 then
      .accept lengths.reverse bufOffset
    else .tooLarge
  | none => .tooLarge

/-! ## The write path of `MessageStream` (src/lib.rs) -/

/-- One scripted response of an `io::Write` sink: `accepted n` models
`Ok(n)` and `err k` an I/O error. -/
inductive WriteEv where
  | accepted (n : Nat)
  | err (k : ErrKind)
deriving DecidableEq

/-- `capnp::Word::words_to_bytes` over our word model: 8 little-endian
bytes per word. -/
def wordsToBytes : List Nat → List Nat
  | [] => []
  | w :: rest => w64le w ++ wordsToBytes rest

/-- `write_segment` (src/lib.rs:211-223): like `write_all`, but increments
the offset after every successful partial write; `Ok(0)` is the
`WriteZero` error, `Interrupted` is retried without advancing, other
errors are surfaced.  Accepting more bytes than remain violates the
`Write` contract (`stuck`). -/
def write_segment : List WriteEv → List Nat → Nat → Outcome × Nat × List WriteEv
  | script, [], offset => (.ok, offset, script)
  | [], _ :: _, offset => (.stuck, offset, [])
  | .accepted n :: rest, b :: bs, offset =>
    if n = 0 then (.ioerr .writeZero, offset, rest)
    else if n ≤ (b :: bs).length then
      write_segment rest ((b :: bs).drop n) (offset + n)
    else (.stuck, offset, rest)
  | .err k :: rest, b :: bs, offset =>
    if k = .interrupted then write_segment rest (b :: bs) offset
    else (.ioerr k, offset, rest)

/-- The `for segment in &segments[(segment_index - 1)..]` loop of
`write_message` (src/lib.rs:239-245): after each fully written segment the
byte offset resets to 0 and the segment index advances; on error the
cursor keeps the partial progress. -/
def write_segs : List WriteEv → List (List Nat) → Nat → Nat →
    Outcome × (Nat × Nat) × List WriteEv
  | script, [], si, so => (.ok, (si, so), script)
  | script, seg :: rest, si, so =>
    match write_segment script ((wordsToBytes seg).drop so) so with
    | (.ok, _, script2) => write_segs script2 rest (si + 1) 0
    | (r, so2, script2) => (r, (si, so2), script2)

/-- `write_message` (src/lib.rs:225-247): if the cursor's segment index is
0, write the rest of the segment table first (resetting the byte offset
and moving to index 1), then write the remaining segments. -/
def write_message (script : List WriteEv) (table : List Nat)
    (segments : List (List Nat)) (cur : Nat × Nat) :
    Outcome × (Nat × Nat) × List WriteEv :=
  if cur.1 = 0 then
    match write_segment script (table.drop cur.2) cur.2 with
    | (.ok, _, script2) => write_segs script2 segments 1 0
    | (r, so2, script2) => (r, (0, so2), script2)
  else
    write_segs script (segments.drop (cur.1 - 1)) cur.1 cur.2

/-- The write-side state of `MessageStream` (src/lib.rs:70-86): the queue
of outbound messages, the message currently being written, its serialized
segment table, and the write cursor. -/
structure WriteState where
  write_queue : List (List (List Nat))
  current_write : Option (List (List Nat))
  current_segment_table : List Nat
  current_segment : Nat × Nat
deriving DecidableEq

/-- `MessageStream::write` (src/lib.rs:253-290), fuelled by the number of
loop iterations: take the current message (or pop the queue, serialize a
fresh segment table, and reset the cursor; return `Ok` if the queue is
empty), call `write_message`, swallow `WouldBlock` into `Ok(())`, surface
other errors, and loop on success.  Note the source never clears
`current_write` on completion. -/
def msWrite : Nat → WriteState → List WriteEv → Outcome × WriteState × List WriteEv
  | 0, st, script => (.fuelOut, st, script)
  | fuel + 1, st, script =>
    let resolved : Option (WriteState × List (List Nat)) :=
      match st.current_write with
      | some m => some (st, m)
      | none =>
        match st.write_queue with
        | [] => none
        | m :: q =>
          some ({ st with write_queue := q, current_write := some m,
                          current_segment_table := serialize_segment_table m,
                          current_segment := (0, 0) }, m)
    match resolved with
    | none => (.ok, st, script)
    | some (st2, m) =>
      match write_message script st2.current_segment_table m st2.current_segment with
      | (.ok, cur2, script2) =>
        msWrite fuel { st2 with current_segment := cur2 } script2
      | (.ioerr k, cur2, script2) =>
        if k = .wouldBlock then (.ok, { st2 with current_segment := cur2 }, script2)
        else (.ioerr k, { st2 with current_segment := cur2 }, script2)
      | (r, cur2, script2) => (r, { st2 with current_segment := cur2 }, script2)

/-- `segment_table_length` as the specification states it (spec §8 P7):
`4n + (8 if n even else 4)`.  This is the spec's formula, to be compared
with the source's serialized length and offset advance. -/
def spec_segment_table_length (n : Nat) : Nat :=
  4 * n + (if n % 2 = 0 then 8 else 4)

/-! ## Codec lemmas -/

theorem le_u32_w32le (n : Nat) (rest : List Nat) (h : n < 4294967296) :
    le_u32 (w32le n ++ rest) = some (n, rest) := by
  simp only [w32le, List.cons_append, List.nil_append, le_u32,
    Option.some.injEq, Prod.mk.injEq]
  exact ⟨by omega, trivial⟩

theorem parse_segment_table_step (input : List Nat) (L : List Nat)
    (raw : Nat) (i : List Nat) (h : le_u32 input = some (raw, i)) :
    parse_segment_table input L =
      (if 512 ≤ (raw + 1) % 4294967296 ∨ (raw + 1) % 4294967296 = 0 then
        ((.Error ((raw + 1) % 4294967296) : PResult), L)
      else
        match parse_lengths ((raw + 1) % 4294967296) i L with
        | (none, L2) => (.Incomplete 4, L2)
        | (some i2, L2) =>
          if (raw + 1) % 4294967296 % 2 = 0 then
            if i2.length < 4 then (.Incomplete 4, L2)
            else (.Done (i2.drop 4), L2)
          else (.Done i2, L2)) := by
  unfold parse_segment_table
  rw [h]

theorem parse_lengths_clean :
    ∀ (segments : List (List Nat)) (L rest : List Nat),
    parse_lengths segments.length (segment_lengths_bytes segments ++ rest) L =
      (some rest, L ++ segments.map (fun s => s.length % 4294967296 * 8)) := by
  intro segments
  induction segments with
  | nil =>
    intro L rest
    simp [parse_lengths, segment_lengths_bytes]
  | cons s t ih =>
    intro L rest
    have hm : s.length % 4294967296 < 4294967296 := Nat.mod_lt _ (by norm_num)
    simp only [segment_lengths_bytes, List.length_cons, List.append_assoc]
    rw [parse_lengths, le_u32_w32le _ _ hm]
    show parse_lengths t.length (segment_lengths_bytes t ++ rest)
        (L ++ [s.length % 4294967296 * 8]) = _
    rw [ih (L ++ [s.length % 4294967296 * 8]) rest]
    simp

/-- Claim C1, counterexample: the claim quantifies over all sequences of
positive word-lengths, but `serialize_segment_table` writes each word count
as `segment.len() as u32`, truncating.  For the single segment of
`2^32` words (a positive word-length, sequence length 1 ∈ [1, 512)), the
serialized table encodes length 0, so the round trip returns `[0]` instead
of `[2^32 * 8]`. -/
theorem c1_round_trip_cx :
    (1 ≤ ([List.replicate 4294967296 (0 : Nat)] : List (List Nat)).length ∧
     ([List.replicate 4294967296 (0 : Nat)] : List (List Nat)).length < 512 ∧
     0 < (List.replicate 4294967296 (0 : Nat)).length) ∧
    parse_segment_table
      (serialize_segment_table [List.replicate 4294967296 (0 : Nat)]) [] =
      (.Done [], [0]) ∧
    (0 : Nat) ≠ (List.replicate 4294967296 (0 : Nat)).length * 8 := by
  have hlen : (List.replicate 4294967296 (0 : Nat)).length = 4294967296 :=
    List.length_replicate _ _
  refine ⟨⟨by decide, by decide, by rw [hlen]; decide⟩, ?_, by rw [hlen]; decide⟩
  have h : serialize_segment_table [List.replicate 4294967296 (0 : Nat)] =
      [0, 0, 0, 0, 0, 0, 0, 0] := by
    simp only [serialize_segment_table, segment_lengths_bytes, hlen,
      List.length_singleton, List.length_cons, List.length_nil]
    norm_num [w32le]
  rw [h]
  decide

/-- Claim C1 (amended: each word-length must additionally be below `2^32`,
since the serializer truncates word counts to u32): for any segment
sequence `segments` with `1 ≤ |segments| < 512` whose lengths are positive
and `< 2^32`, parsing the serialized segment table yields `Done` with an
empty remaining suffix and the lengths multiplied by 8 (bytes). -/
theorem c1_round_trip (segments : List (List Nat))
    (h1 : 1 ≤ segments.length) (h2 : segments.length < 512)
    (h3 : ∀ s ∈ segments, 0 < s.length ∧ s.length < 4294967296) :
    parse_segment_table (serialize_segment_table segments) [] =
      (.Done [], segments.map (fun s => s.length * 8)) := by
  have hraw : le_u32 (serialize_segment_table segments) =
      some (segments.length - 1,
        segment_lengths_bytes segments ++
          (if segments.length % 2 = 0 then [0, 0, 0, 0] else [])) := by
    unfold serialize_segment_table
    rw [List.append_assoc]
    have hc1 : (segments.length % 4294967296 + (4294967296 - 1)) % 4294967296
        = segments.length - 1 := by omega
    rw [hc1]
    exact le_u32_w32le _ _ (by omega)
  rw [parse_segment_table_step _ _ _ _ hraw]
  have hcc : (segments.length - 1 + 1) % 4294967296 = segments.length := by
    omega
  rw [hcc]
  rw [if_neg (by omega : ¬(512 ≤ segments.length ∨ segments.length = 0))]
  rw [parse_lengths_clean]
  have hmap : segments.map (fun s => s.length % 4294967296 * 8)
      = segments.map (fun s => s.length * 8) :=
    List.map_congr_left (fun s hs => by rw [Nat.mod_eq_of_lt (h3 s hs).2])
  by_cases hp : segments.length % 2 = 0
  · simp [hp, hmap]
  · simp [hp, hmap]

/-- Witness for `c1_round_trip` at the one-segment, one-word message. -/
theorem c1_round_trip_witness :
    parse_segment_table (serialize_segment_table [[0]]) [] =
      (.Done [], [8]) :=
  c1_round_trip [[0]] (by decide) (by decide) (by decide)

/-- Claim C2: `parse_segment_table` computes the segment count as the
on-wire u32 plus one with wrapping semantics; whenever the count field is
readable, the result is an `Error` exactly when the adjusted count is 0 or
≥ 512, and any `Error` carries the adjusted count.  Concretely: an actual
segment count of 511 (on-wire field 510, here followed by 511 zero
word-lengths) parses; on-wire field 511 (adjusted 512) fails with code
512; on-wire 0xFFFF_FFFF (adjusted count wraps to 0) fails with code 0. -/
theorem c2_segment_count_validation :
    (∀ (input L : List Nat) (raw : Nat) (i : List Nat),
      le_u32 input = some (raw, i) →
      (((parse_segment_table input L).1.isError = true) ↔
        ((raw + 1) % 4294967296 = 0 ∨ 512 ≤ (raw + 1) % 4294967296)) ∧
      (∀ code, (parse_segment_table input L).1 = .Error code →
        code = (raw + 1) % 4294967296)) ∧
    (parse_segment_table (w32le 510 ++ List.replicate 2044 0) []).1 =
      .Done [] ∧
    (parse_segment_table [255, 1, 0, 0] []).1 = .Error 512 ∧
    (parse_segment_table [255, 255, 255, 255] []).1 = .Error 0 := by
  refine ⟨?_, by decide, by decide, by decide⟩
  intro input L raw i h
  rw [parse_segment_table_step _ _ _ _ h]
  by_cases hv : 512 ≤ (raw + 1) % 4294967296 ∨ (raw + 1) % 4294967296 = 0
  · rw [if_pos hv]
    refine ⟨by simp [PResult.isError]; omega, ?_⟩
    intro code hc
    simp at hc
    omega
  · rw [if_neg hv]
    rcases hpl : parse_lengths ((raw + 1) % 4294967296) i L with ⟨oi, L2⟩
    cases oi with
    | none => simp [PResult.isError]; omega
    | some i2 =>
      by_cases hp : (raw + 1) % 4294967296 % 2 = 0
      · by_cases hl : i2.length < 4
        · simp [hp, hl, PResult.isError]; omega
        · simp [hp, hl, PResult.isError]; omega
      · simp [hp, PResult.isError]; omega

/-- Witness for `c2_segment_count_validation` at a one-segment header. -/
theorem c2_segment_count_validation_witness :
    ((parse_segment_table [0, 0, 0, 0] []).1.isError = true) ↔
      (((0 : Nat) + 1) % 4294967296 = 0 ∨ 512 ≤ ((0 : Nat) + 1) % 4294967296) :=
  (c2_segment_count_validation.1 [0, 0, 0, 0] [] 0 [] (by decide)).1

theorem segment_lengths_bytes_length (segments : List (List Nat)) :
    (segment_lengths_bytes segments).length = 4 * segments.length := by
  induction segments with
  | nil => simp [segment_lengths_bytes]
  | cons s t ih =>
    simp [segment_lengths_bytes, w32le, ih]
    omega

theorem spec_stl_words (n : Nat) :
    spec_segment_table_length n = (1 + n / 2) * 8 := by
  unfold spec_segment_table_length
  by_cases hp : n % 2 = 0 <;> simp [hp] <;> omega

/-- Claim C8: for `n ≥ 1` segments, the header length
`4n + (8 if n even else 4)` equals the number of bytes
`serialize_segment_table` produces, equals `(1 + n/2) * 8`, and is exactly
the amount by which a successful `read_segment_table` advances the read
offset. -/
theorem c8_header_length (n : Nat) (segments : List (List Nat))
    (lengths : List Nat) (bufOffset limit : Nat) (rem : List Nat)
    (off2 : Nat) (hn : 1 ≤ n) :
    (segments.length = n →
      (serialize_segment_table segments).length = spec_segment_table_length n) ∧
    spec_segment_table_length n = (1 + n / 2) * 8 ∧
    (lengths.length = n →
      rst_after_parse lengths bufOffset limit = .accept rem off2 →
      off2 = bufOffset + spec_segment_table_length n) := by
  refine ⟨?_, spec_stl_words n, ?_⟩
  · intro hl
    unfold serialize_segment_table spec_segment_table_length
    simp [segment_lengths_bytes_length, w32le, hl]
    by_cases hp : n % 2 = 0 <;> simp [hp] <;> omega
  · intro hl hacc
    unfold rst_after_parse at hacc
    rcases hcs : checkedSumU64 lengths with _ | s <;> rw [hcs] at hacc
    · exact absurd hacc (by simp)
    · by_cases hle : s ≤ limit * 8 % 18446744073709551616
      · simp only [hle, if_true, RstOut.accept.injEq] at hacc
        obtain ⟨-, h2⟩ := hacc
        rw [spec_stl_words n, ← hl]
        omega
      · simp [hle] at hacc

/-- Witness for `c8_header_length` at `n = 2`. -/
theorem c8_header_length_witness :
    (serialize_segment_table [[0], [1]]).length = spec_segment_table_length 2 ∧
    (16 : Nat) = 0 + spec_segment_table_length 2 :=
  ⟨(c8_header_length 2 [[0], [1]] [8, 8] 0 100 [8, 8] 16 (by decide)).1 rfl,
   (c8_header_length 2 [[0], [1]] [8, 8] 0 100 [8, 8] 16 (by decide)).2.2 rfl
     (by decide)⟩

theorem checkedSum_foldl_none (t : List Nat) :
    t.foldl
      (fun acc len => acc.bind fun n =>
        if n + len < 18446744073709551616 then some (n + len) else none)
      none = none := by
  induction t with
  | nil => rfl
  | cons x t ih =>
    simp only [List.foldl_cons, Option.none_bind]
    exact ih

theorem checkedSumU64_go (lengths : List Nat) :
    ∀ a, a < 18446744073709551616 →
      lengths.foldl
        (fun acc len => acc.bind fun n =>
          if n + len < 18446744073709551616 then some (n + len) else none)
        (some a) =
      (if a + lengths.sum < 18446744073709551616 then some (a + lengths.sum)
       else none) := by
  induction lengths with
  | nil =>
    intro a ha
    simp [ha]
  | cons x t ih =>
    intro a ha
    simp only [List.foldl_cons, Option.some_bind, List.sum_cons]
    by_cases hx : a + x < 18446744073709551616
    · rw [if_pos hx, ih (a + x) hx]
      by_cases h2 : a + x + t.sum < 18446744073709551616
      · rw [if_pos h2, if_pos (by omega : a + (x + t.sum) < 18446744073709551616)]
        simp [Nat.add_assoc]
      · rw [if_neg h2, if_neg (by omega : ¬a + (x + t.sum) < 18446744073709551616)]
    · rw [if_neg hx, checkedSum_foldl_none,
        if_neg (by omega : ¬a + (x + t.sum) < 18446744073709551616)]

/-- The checked u64 sum equals the mathematical sum when that fits in u64,
and is `none` (overflow) otherwise. -/
theorem checkedSumU64_spec (lengths : List Nat) :
    checkedSumU64 lengths =
      (if lengths.sum < 18446744073709551616 then some lengths.sum
       else none) := by
  have h := checkedSumU64_go lengths 0 (by norm_num)
  simpa [checkedSumU64] using h

theorem rst_after_parse_some (lengths : List Nat) (bufOffset limit s : Nat)
    (h : checkedSumU64 lengths = some s) :
    rst_after_parse lengths bufOffset limit =
      (if s ≤ limit * 8 % 18446744073709551616 then
        RstOut.accept lengths.reverse (bufOffset + (1 + lengths.length / 2) * 8)
      else RstOut.tooLarge) := by
  unfold rst_after_parse
  rw [h]

theorem rst_after_parse_none (lengths : List Nat) (bufOffset limit : Nat)
    (h : checkedSumU64 lengths = none) :
    rst_after_parse lengths bufOffset limit = RstOut.tooLarge := by
  unfold rst_after_parse
  rw [h]

/-- Claim C6, counterexample: the code compares the checked sum against
`traversal_limit_in_words * 8` computed in u64, which wraps.  With the
(absurd but configurable) limit `2^61`, the message `[8]` - whose segment
table parses and whose byte sum 8 is at most `2^61 * 8` mathematically,
so the claim says "accept" - is rejected, because `2^61 * 8` wraps to 0. -/
theorem c6_traversal_limit_cx :
    parse_segment_table [0, 0, 0, 0, 1, 0, 0, 0] [] = (.Done [], [8]) ∧
    rst_after_parse [8] 0 2305843009213693952 = .tooLarge ∧
    (8 : Nat) ≤ 2305843009213693952 * 8 := by
  refine ⟨by decide, by decide, by decide⟩

/-- Claim C6 (amended: additionally require that
`traversal_limit_in_words * 8` does not overflow u64, i.e.
`limit * 8 < 2^64`; the code computes the bound with wrapping u64
multiplication): for every message whose segment table parses
successfully, the post-parse check accepts exactly when the sum of the
segment byte-lengths is at most `limit * 8`; equality is accepted,
anything larger is rejected as "message is too large". -/
theorem c6_traversal_limit (input L rest lengths : List Nat)
    (bufOffset limit : Nat)
    (hp : parse_segment_table input L = (.Done rest, lengths))
    (hlim : limit * 8 < 18446744073709551616) :
    (∃ rem off2, rst_after_parse lengths bufOffset limit = .accept rem off2) ↔
      lengths.sum ≤ limit * 8 := by
  have hw : limit * 8 % 18446744073709551616 = limit * 8 :=
    Nat.mod_eq_of_lt hlim
  by_cases h : lengths.sum < 18446744073709551616
  · have hs : checkedSumU64 lengths = some lengths.sum := by
      rw [checkedSumU64_spec, if_pos h]
    rw [rst_after_parse_some _ _ _ _ hs, hw]
    by_cases hle : lengths.sum ≤ limit * 8
    · rw [if_pos hle]
      simp [hle]
    · rw [if_neg hle]
      simp [hle]
  · have hs : checkedSumU64 lengths = none := by
      rw [checkedSumU64_spec, if_neg h]
    rw [rst_after_parse_none _ _ _ hs]
    constructor
    · rintro ⟨rem, off2, hacc⟩
      exact RstOut.noConfusion hacc
    · intro hle
      omega

/-- Witness for `c6_traversal_limit` at a one-segment message, limit 10. -/
theorem c6_traversal_limit_witness :
    (∃ rem off2, rst_after_parse [8] 0 10 = .accept rem off2) ↔
      (8 : Nat) ≤ 10 * 8 :=
  c6_traversal_limit [0, 0, 0, 0, 1, 0, 0, 0] [] [] [8] 0 10 (by decide)
    (by decide)

/-- Claim C10: the total-length check sums the segment byte-lengths with
u64 checked addition: an overflowing sum yields `None` and is rejected
with the "message is too large" decode error; a successful sum equals the
true mathematical sum (no wrap-around), so acceptance always implies the
true sum is within the computed bound - the check cannot be bypassed by
arithmetic overflow. -/
theorem c10_checked_sum (lengths : List Nat) (bufOffset limit : Nat) :
    (checkedSumU64 lengths = none →
      rst_after_parse lengths bufOffset limit = .tooLarge) ∧
    (∀ s, checkedSumU64 lengths = some s →
      s = lengths.sum ∧ lengths.sum < 18446744073709551616) ∧
    (∀ rem off2, rst_after_parse lengths bufOffset limit = .accept rem off2 →
      lengths.sum ≤ limit * 8 % 18446744073709551616) := by
  refine ⟨fun hn => rst_after_parse_none _ _ _ hn, ?_, ?_⟩
  · intro s hs
    rw [checkedSumU64_spec] at hs
    by_cases h : lengths.sum < 18446744073709551616
    · rw [if_pos h] at hs
      cases hs
      exact ⟨rfl, h⟩
    · rw [if_neg h] at hs
      exact Option.noConfusion hs
  · intro rem off2 hacc
    rcases hcs : checkedSumU64 lengths with _ | s
    · rw [rst_after_parse_none _ _ _ hcs] at hacc
      exact RstOut.noConfusion hacc
    · rw [rst_after_parse_some _ _ _ _ hcs] at hacc
      by_cases hle : s ≤ limit * 8 % 18446744073709551616
      · rw [checkedSumU64_spec] at hcs
        by_cases h : lengths.sum < 18446744073709551616
        · rw [if_pos h] at hcs
          cases hcs
          exact hle
        · rw [if_neg h] at hcs
          exact Option.noConfusion hcs
      · rw [if_neg hle] at hacc
        exact RstOut.noConfusion hacc

/-- Witness for `c10_checked_sum` via its acceptance conjunct. -/
theorem c10_checked_sum_witness :
    (8 : Nat) ≤ 10 * 8 % 18446744073709551616 :=
  (c10_checked_sum [8] 0 10).2.2 [8] 8 (by decide)

/-! ## Buffer lemmas -/

@[simp] theorem mkFR_out (r : Outcome × MutBuf × List ReadEv) (f : Nat) :
    (mkFR r f).out = r.1 := by
  rcases r with ⟨o, b, sc⟩
  rfl

@[simp] theorem mkFR_buf (r : Outcome × MutBuf × List ReadEv) (f : Nat) :
    (mkFR r f).buf = r.2.1 := by
  rcases r with ⟨o, b, sc⟩
  rfl

@[simp] theorem mkFR_fromOff (r : Outcome × MutBuf × List ReadEv) (f : Nat) :
    (mkFR r f).fromOff = f := by
  rcases r with ⟨o, b, sc⟩
  rfl

@[simp] theorem mkFR_script (r : Outcome × MutBuf × List ReadEv) (f : Nat) :
    (mkFR r f).script = r.2.2 := by
  rcases r with ⟨o, b, sc⟩
  rfl

theorem fillLoop_cap (script : List ReadEv) : ∀ (b : MutBuf) (target : Nat),
    (fillLoop target script b).2.1.cap = b.cap := by
  induction script with
  | nil =>
    intro b target
    rw [fillLoop.eq_def]
    by_cases h : target ≤ b.data.length <;> simp [h]
  | cons ev rest ih =>
    intro b target
    rw [fillLoop.eq_def]
    by_cases h : target ≤ b.data.length
    · simp [h]
    · cases ev with
      | chunk bytes =>
        by_cases h0 : bytes.length = 0
        · simp [h, h0]
        · by_cases hc : bytes.length ≤ b.cap - b.data.length
          · simp only [h, if_false, h0, hc, if_true]
            exact ih _ _
          · simp [h, h0, hc]
      | err k => simp [h]

theorem fillLoop_data (script : List ReadEv) : ∀ (b : MutBuf) (target : Nat),
    ∃ t, (fillLoop target script b).2.1.data = b.data ++ t := by
  induction script with
  | nil =>
    intro b target
    rw [fillLoop.eq_def]
    by_cases h : target ≤ b.data.length <;> simp [h]
  | cons ev rest ih =>
    intro b target
    rw [fillLoop.eq_def]
    by_cases h : target ≤ b.data.length
    · simp [h]
    · cases ev with
      | chunk bytes =>
        by_cases h0 : bytes.length = 0
        · simp [h, h0]
        · by_cases hc : bytes.length ≤ b.cap - b.data.length
          · simp only [h, if_false, h0, hc, if_true]
            obtain ⟨t, ht⟩ := ih ⟨b.cap, b.data ++ bytes⟩ target
            exact ⟨bytes ++ t, by rw [ht]; simp⟩
          · simp [h, h0, hc]
      | err k => simp [h]

theorem fillLoop_ok_len (script : List ReadEv) : ∀ (b : MutBuf) (target : Nat),
    (fillLoop target script b).1 = .ok →
      target ≤ (fillLoop target script b).2.1.data.length := by
  induction script with
  | nil =>
    intro b target
    rw [fillLoop.eq_def]
    by_cases h : target ≤ b.data.length <;> simp [h]
  | cons ev rest ih =>
    intro b target
    rw [fillLoop.eq_def]
    by_cases h : target ≤ b.data.length
    · simp [h]
    · cases ev with
      | chunk bytes =>
        by_cases h0 : bytes.length = 0
        · simp [h, h0]
        · by_cases hc : bytes.length ≤ b.cap - b.data.length
          · simp only [h, if_false, h0, hc, if_true]
            exact ih _ _
          · simp [h, h0, hc]
      | err k => simp [h]

theorem fillLoop_ne_assertFail (script : List ReadEv) :
    ∀ (b : MutBuf) (target : Nat),
    (fillLoop target script b).1 ≠ .assertFail := by
  induction script with
  | nil =>
    intro b target
    rw [fillLoop.eq_def]
    by_cases h : target ≤ b.data.length <;> simp [h]
  | cons ev rest ih =>
    intro b target
    rw [fillLoop.eq_def]
    by_cases h : target ≤ b.data.length
    · simp [h]
    · cases ev with
      | chunk bytes =>
        by_cases h0 : bytes.length = 0
        · simp [h, h0]
        · by_cases hc : bytes.length ≤ b.cap - b.data.length
          · simp only [h, if_false, h0, hc, if_true]
            exact ih _ _
          · simp [h, h0, hc]
      | err k => simp [h]

theorem fill_cap (b : MutBuf) (script : List ReadEv) (amount : Nat) :
    (b.fill script amount).2.1.cap = b.cap := by
  unfold MutBuf.fill
  by_cases h : b.cap - b.data.length < amount
  · simp [h]
  · simp only [h, if_false]
    exact fillLoop_cap script b _

theorem fill_data (b : MutBuf) (script : List ReadEv) (amount : Nat) :
    ∃ t, (b.fill script amount).2.1.data = b.data ++ t := by
  unfold MutBuf.fill
  by_cases h : b.cap - b.data.length < amount
  · simp [h]
  · simp only [h, if_false]
    exact fillLoop_data script b _

theorem fill_ok_len (b : MutBuf) (script : List ReadEv) (amount : Nat) :
    (b.fill script amount).1 = .ok →
      b.data.length + amount ≤ (b.fill script amount).2.1.data.length := by
  unfold MutBuf.fill
  by_cases h : b.cap - b.data.length < amount
  · simp [h]
  · simp only [h, if_false]
    exact fillLoop_ok_len script b _

/-- The committed prefix is only ever extended by `fill_or_replace`, and
the unread tail `[fromOff, write_offset)` survives (relocated to the front
on the replacement path): the old unread bytes are a prefix of the new
unread bytes. -/
theorem fill_or_replace_unread (b : MutBuf) (script : List ReadEv)
    (fromOff amount : Nat) (h1 : fromOff ≤ b.data.length) :
    ∃ t, (b.fill_or_replace script fromOff amount).buf.data.drop
        (b.fill_or_replace script fromOff amount).fromOff =
      b.data.drop fromOff ++ t := by
  unfold MutBuf.fill_or_replace
  rw [if_neg (by omega : ¬b.data.length < fromOff)]
  by_cases hb : amount ≤ b.data.length - fromOff
  · rw [if_pos hb]
    exact ⟨[], by simp⟩
  · rw [if_neg hb]
    by_cases hr : b.cap - b.data.length < amount - (b.data.length - fromOff)
    · rw [if_pos hr]
      have hcap : (b.data.drop fromOff).length ≤
          rawBufLen (max 4096 (amount + 8)) := by
        rw [List.length_drop]
        unfold rawBufLen
        omega
      have hb2 : ((MutBuf.with_capacity (max 4096 (amount + 8))).write
          (b.data.drop fromOff)).2.data = b.data.drop fromOff := by
        unfold MutBuf.write MutBuf.with_capacity
        simp only [List.length_nil, Nat.sub_zero, List.nil_append]
        rw [Nat.min_eq_left hcap, List.take_length _]
      obtain ⟨t, ht⟩ := fill_data
        ((MutBuf.with_capacity (max 4096 (amount + 8))).write
          (b.data.drop fromOff)).2 script (amount - (b.data.length - fromOff))
      refine ⟨t, ?_⟩
      simp only [mkFR_buf, mkFR_fromOff, List.drop_zero]
      rw [ht, hb2]
    · rw [if_neg hr]
      obtain ⟨t, ht⟩ := fill_data b script (amount - (b.data.length - fromOff))
      refine ⟨t, ?_⟩
      simp only [mkFR_buf, mkFR_fromOff]
      rw [ht, List.drop_append_of_le_length h1]

/-- When `fill_or_replace` succeeds, at least `amount` bytes are buffered
past the (possibly reset) cursor. -/
theorem fill_or_replace_ok_len (b : MutBuf) (script : List ReadEv)
    (fromOff amount : Nat)
    (h : (b.fill_or_replace script fromOff amount).out = .ok) :
    (b.fill_or_replace script fromOff amount).fromOff + amount ≤
      (b.fill_or_replace script fromOff amount).buf.data.length := by
  unfold MutBuf.fill_or_replace at h ⊢
  by_cases h0 : b.data.length < fromOff
  · rw [if_pos h0] at h
    exact absurd h (by simp)
  · rw [if_neg h0] at h ⊢
    by_cases hb : amount ≤ b.data.length - fromOff
    · rw [if_pos hb] at h ⊢
      simp only
      omega
    · rw [if_neg hb] at h ⊢
      by_cases hr : b.cap - b.data.length < amount - (b.data.length - fromOff)
      · rw [if_pos hr] at h ⊢
        simp only [mkFR_out] at h
        simp only [mkFR_buf, mkFR_fromOff]
        have hlen := fill_ok_len
          ((MutBuf.with_capacity (max 4096 (amount + 8))).write
            (b.data.drop fromOff)).2 script
          (amount - (b.data.length - fromOff)) h
        have hb2 : ((MutBuf.with_capacity (max 4096 (amount + 8))).write
            (b.data.drop fromOff)).2.data.length = b.data.length - fromOff := by
          unfold MutBuf.write MutBuf.with_capacity
          simp only [List.length_nil, Nat.sub_zero, List.nil_append]
          rw [List.length_take, List.length_drop]
          unfold rawBufLen
          omega
        omega
      · rw [if_neg hr] at h ⊢
        simp only [mkFR_out] at h
        simp only [mkFR_buf, mkFR_fromOff]
        have hlen := fill_ok_len b script (amount - (b.data.length - fromOff)) h
        omega

/-- `fill_or_replace` preserves the buffer's capacity except on the
replacement path, where the new capacity is the fresh slab's. -/
theorem fill_or_replace_cap_replace (b : MutBuf) (script : List ReadEv)
    (fromOff amount : Nat)
    (h1 : fromOff ≤ b.data.length)
    (h2 : b.data.length - fromOff < amount)
    (h3 : b.cap - b.data.length < amount - (b.data.length - fromOff)) :
    (b.fill_or_replace script fromOff amount).buf.cap =
      rawBufLen (max 4096 (amount + 8)) := by
  unfold MutBuf.fill_or_replace
  rw [if_neg (by omega : ¬b.data.length < fromOff),
    if_neg (by omega : ¬amount ≤ b.data.length - fromOff), if_pos h3]
  simp only [mkFR_buf]
  rw [fill_cap]
  unfold MutBuf.write MutBuf.with_capacity
  simp

/-- Claim C9: under the caller's precondition `from ≤ write_offset` (and
the representation invariant `write_offset ≤ capacity`), the assertion
inside `MutBuf::fill` that the remaining capacity covers the requested
amount can never fire on either path of `fill_or_replace`. -/
theorem c9_fill_assert_ok (b : MutBuf) (script : List ReadEv)
    (fromOff amount : Nat) (h1 : fromOff ≤ b.data.length)
    (h2 : b.data.length ≤ b.cap) :
    (b.fill_or_replace script fromOff amount).out ≠ .assertFail := by
  unfold MutBuf.fill_or_replace
  rw [if_neg (by omega : ¬b.data.length < fromOff)]
  by_cases hb : amount ≤ b.data.length - fromOff
  · rw [if_pos hb]
    simp
  · rw [if_neg hb]
    by_cases hr : b.cap - b.data.length < amount - (b.data.length - fromOff)
    · rw [if_pos hr]
      simp only [mkFR_out]
      have hb2 : ((MutBuf.with_capacity (max 4096 (amount + 8))).write
          (b.data.drop fromOff)).2.data.length = b.data.length - fromOff := by
        unfold MutBuf.write MutBuf.with_capacity
        simp only [List.length_nil, Nat.sub_zero, List.nil_append]
        rw [List.length_take, List.length_drop]
        unfold rawBufLen
        omega
      have hcap : ((MutBuf.with_capacity (max 4096 (amount + 8))).write
          (b.data.drop fromOff)).2.cap = rawBufLen (max 4096 (amount + 8)) := by
        unfold MutBuf.write MutBuf.with_capacity
        simp
      unfold MutBuf.fill
      rw [hb2, hcap]
      rw [if_neg (by unfold rawBufLen; omega)]
      exact fillLoop_ne_assertFail _ _ _
    · rw [if_neg hr]
      simp only [mkFR_out]
      unfold MutBuf.fill
      rw [if_neg (by omega)]
      exact fillLoop_ne_assertFail _ _ _

/-- Witness for `c9_fill_assert_ok`. -/
theorem c9_fill_assert_ok_witness :
    ((MutBuf.with_capacity 16).fill_or_replace [] 0 4).out ≠ .assertFail :=
  c9_fill_assert_ok (MutBuf.with_capacity 16) [] 0 4 (by decide) (by decide)

/-- Claim C5, counterexample: the fresh slab allocated on the replacement
path has `max(4096, amount + 8)` bytes of *allocation*, but only
`max(4096, amount + 8) - 8` bytes available for payload - the first 8
bytes of every `RawBuf` hold the reference count.  At `amount = 4096` the
payload capacity is 4096, not the claimed `max(4096, 4096 + 8) = 4104`. -/
theorem c5_slab_capacity_cx :
    ((MutBuf.with_capacity 8).fill_or_replace [] 0 4096).buf.cap = 4096 ∧
    (4096 : Nat) ≠ max 4096 (4096 + 8) := by
  exact ⟨by decide, by decide⟩

/-- Claim C5 (amended: capacities are allocation sizes; the payload
capacity is 8 less): the initial slab is a 4096-byte allocation with
`4096 - 8` payload bytes, and whenever `fill_or_replace` must replace the
slab, the fresh slab's payload capacity is `max(4096, amount + 8) - 8`
(an allocation of `max(4096, amount + 8)` bytes). -/
theorem c5_slab_capacity :
    MutBuf.new.cap = 4096 - 8 ∧
    ∀ (b : MutBuf) (script : List ReadEv) (fromOff amount : Nat),
      fromOff ≤ b.data.length →
      b.data.length - fromOff < amount →
      b.cap - b.data.length < amount - (b.data.length - fromOff) →
      (b.fill_or_replace script fromOff amount).buf.cap =
        max 4096 (amount + 8) - 8 := by
  refine ⟨by decide, ?_⟩
  intro b script fromOff amount h1 h2 h3
  rw [fill_or_replace_cap_replace b script fromOff amount h1 h2 h3]
  unfold rawBufLen
  omega

/-- Witness for `c5_slab_capacity` at `amount = 100`. -/
theorem c5_slab_capacity_witness :
    ((MutBuf.with_capacity 8).fill_or_replace [] 0 100).buf.cap =
      max 4096 (100 + 8) - 8 :=
  c5_slab_capacity.2 (MutBuf.with_capacity 8) [] 0 100 (by decide) (by decide)
    (by decide)

/-- Claim C3, counterexample: the read-side fill loop (`MutBuf::fill`,
src/buf.rs:72) propagates every I/O error with `try!` and has no
`Interrupted` arm, so an `Interrupted` read error *is* surfaced to the
caller - refuting the claim for the read side.  (The write side does
retry; see the amended theorem.) -/
theorem c3_interrupted_cx :
    (MutBuf.with_capacity 16).fill [ReadEv.err .interrupted] 4 =
      (.ioerr .interrupted, MutBuf.with_capacity 16, []) := by
  decide

/-- Claim C3 (amended: only the write-side loop retries `Interrupted`;
the read-side fill loop surfaces it like any other error, without
consuming buffered bytes or advancing the write offset): `write_segment`
never returns an `Interrupted` error and retries it without advancing the
offset, while `fillLoop` returns it to the caller with the buffer
unchanged. -/
theorem c3_interrupted :
    (∀ (script : List WriteEv) (buf : List Nat) (offset : Nat),
      (write_segment script buf offset).1 ≠ .ioerr .interrupted) ∧
    (∀ (rest : List WriteEv) (buf : List Nat) (offset : Nat), buf ≠ [] →
      write_segment (.err .interrupted :: rest) buf offset =
        write_segment rest buf offset) ∧
    (∀ (rest : List ReadEv) (b : MutBuf) (target : Nat),
      b.data.length < target →
      fillLoop target (.err .interrupted :: rest) b =
        (.ioerr .interrupted, b, rest)) := by
  refine ⟨?_, ?_, ?_⟩
  · intro script
    induction script with
    | nil =>
      intro buf offset
      cases buf <;> simp [write_segment]
    | cons ev rest ih =>
      intro buf offset
      cases buf with
      | nil => simp [write_segment]
      | cons x xs =>
        cases ev with
        | accepted n =>
          by_cases h0 : n = 0
          · simp [write_segment, h0]
          · by_cases hn : n ≤ xs.length + 1
            · simp only [write_segment, h0, if_false, List.length_cons, hn,
                if_true]
              exact ih _ _
            · simp [write_segment, h0, List.length_cons, hn]
        | err k =>
          by_cases hk : k = .interrupted
          · simp only [write_segment, hk, if_true]
            exact ih _ _
          · simp [write_segment, hk]
  · intro rest buf offset hb
    cases buf with
    | nil => exact absurd rfl hb
    | cons x xs => simp [write_segment]
  · intro rest b target h
    simp [fillLoop.eq_def, show ¬target ≤ b.data.length from by omega]

/-- Witness for `c3_interrupted`. -/
theorem c3_interrupted_witness :
    write_segment [WriteEv.err .interrupted] [5] 0 = write_segment [] [5] 0 ∧
    fillLoop 4 [ReadEv.err .interrupted] (MutBuf.with_capacity 16) =
      (.ioerr .interrupted, MutBuf.with_capacity 16, []) :=
  ⟨c3_interrupted.2.1 [] [5] 0 (by decide),
   c3_interrupted.2.2 [] (MutBuf.with_capacity 16) 4 (by decide)⟩

/-- Claim C7: in the segment loop of `read_message`, the stack is popped
only after the segment view has been created and pushed.  If the step
fails (in particular on `WouldBlock`), the `remaining_segments` stack and
the accumulated `segments` are exactly unchanged - so the next call
retries the same segment at the same stack top - and no buffered byte is
lost or consumed: the old unread bytes are a prefix of the new unread
bytes (bytes the failed fill managed to read stay buffered; on the
replacement path they are relocated to the slab front).  On success the
step appends exactly the new view and pops exactly the top. -/
theorem c7_pop_after_push (st : RMState) (script : List ReadEv) (len : Nat)
    (htop : st.remaining_segments.getLast? = some len)
    (hinv : st.buf_offset ≤ st.buf.data.length) :
    ((read_message_step st script len).1 ≠ .ok →
      (read_message_step st script len).2.1.remaining_segments =
        st.remaining_segments ∧
      (read_message_step st script len).2.1.segments = st.segments ∧
      ∃ t, (read_message_step st script len).2.1.buf.data.drop
          (read_message_step st script len).2.1.buf_offset =
        st.buf.data.drop st.buf_offset ++ t) ∧
    ((read_message_step st script len).1 = .ok →
      (read_message_step st script len).2.1.buf_offset =
        (st.buf.fill_or_replace script st.buf_offset len).fromOff + len ∧
      (read_message_step st script len).2.1.segments =
        st.segments ++
          [((read_message_step st script len).2.1.buf.data.drop
              (st.buf.fill_or_replace script st.buf_offset len).fromOff).take
            len] ∧
      (read_message_step st script len).2.1.remaining_segments =
        st.remaining_segments.dropLast) := by
  have hun := fill_or_replace_unread st.buf script st.buf_offset len hinv
  simp only [read_message_step, read_segment]
  rcases ho : (st.buf.fill_or_replace script st.buf_offset len).out with
    _ | k | _ | _ | _
  · by_cases hb : (st.buf.fill_or_replace script st.buf_offset len).fromOff +
        len ≤ (st.buf.fill_or_replace script st.buf_offset len).buf.data.length
    · simp [hb]
    · simp [hb]
      exact hun
  · simp
    exact hun
  · simp
    exact hun
  · simp
    exact hun
  · simp
    exact hun

/-- Witness for `c7_pop_after_push`: a `WouldBlock` on the first fill of
an 8-byte segment leaves the stack, segments, buffer and offset intact. -/
theorem c7_pop_after_push_witness :
    (read_message_step ⟨MutBuf.with_capacity 16, 0, [8], []⟩
        [ReadEv.err .wouldBlock] 8).2.1.remaining_segments = [8] ∧
    (read_message_step ⟨MutBuf.with_capacity 16, 0, [8], []⟩
        [ReadEv.err .wouldBlock] 8).2.1.segments = [] :=
  ⟨((c7_pop_after_push ⟨MutBuf.with_capacity 16, 0, [8], []⟩
      [ReadEv.err .wouldBlock] 8 (by decide) (by decide)).1 (by decide)).1,
   ((c7_pop_after_push ⟨MutBuf.with_capacity 16, 0, [8], []⟩
      [ReadEv.err .wouldBlock] 8 (by decide) (by decide)).1 (by decide)).2.1⟩

/-- Claim C4, counterexample: `MessageStream::write` returns the plain
`io::Result` value `Ok(())` when the transport reports `WouldBlock`
mid-write (src/lib.rs:285) - the very same value it returns when the queue
has been fully drained.  There is no distinct `would_block` outcome in the
result: below, the blocked call (message still pending in
`current_write`) and the drained call both return `.ok`. -/
theorem c4_would_block_cx :
    (msWrite 2 ⟨[[[1]]], none, [], (0, 0)⟩ [WriteEv.err .wouldBlock]).1 =
      .ok ∧
    (msWrite 2 ⟨[[[1]]], none, [], (0, 0)⟩
        [WriteEv.err .wouldBlock]).2.1.current_write = some [[1]] ∧
    (msWrite 1 ⟨[], none, [], (0, 0)⟩ []).1 = .ok := by
  exact ⟨by decide, by decide, by decide⟩

/-- Claim C4 (amended: on `WouldBlock` the operation returns `Ok(())`,
indistinguishable by return value from a fully drained queue - the
difference is visible only in the stream state, where `current_write`
keeps the pending message): whenever `write_message` hits `WouldBlock`,
`MessageStream::write` returns `.ok` and every piece of write progress is
preserved - the queue, the current message, its segment table, and the
cursor as advanced by the partial write. -/
theorem c4_would_block (fuel : Nat) (st : WriteState) (script : List WriteEv)
    (m : List (List Nat)) (cur2 : Nat × Nat) (script2 : List WriteEv) :
    (st.current_write = some m →
      write_message script st.current_segment_table m st.current_segment =
        (.ioerr .wouldBlock, cur2, script2) →
      msWrite (fuel + 1) st script =
        (.ok, { st with current_segment := cur2 }, script2)) ∧
    (st.current_write = none → st.write_queue = [] →
      msWrite (fuel + 1) st script = (.ok, st, script)) ∧
    (∀ q, st.current_write = none → st.write_queue = m :: q →
      write_message script (serialize_segment_table m) m (0, 0) =
        (.ioerr .wouldBlock, cur2, script2) →
      msWrite (fuel + 1) st script =
        (.ok, { st with write_queue := q, current_write := some m,
                        current_segment_table := serialize_segment_table m,
                        current_segment := cur2 }, script2)) := by
  refine ⟨?_, ?_, ?_⟩
  · intro hcw hwm
    rw [msWrite, hcw]
    simp only
    rw [hwm]
    simp [hcw]
  · intro hcw hq
    rw [msWrite, hcw, hq]
  · intro q hcw hq hwm
    rw [msWrite, hcw, hq]
    simp only
    rw [hwm]
    simp

/-- Witness for `c4_would_block`: a mid-write `WouldBlock` returns `.ok`
with the message retained. -/
theorem c4_would_block_witness :
    msWrite 1 ⟨[], some [[1]], serialize_segment_table [[1]], (0, 0)⟩
        [WriteEv.err .wouldBlock] =
      (.ok, ⟨[], some [[1]], serialize_segment_table [[1]], (0, 0)⟩, []) :=
  (c4_would_block 0 ⟨[], some [[1]], serialize_segment_table [[1]], (0, 0)⟩
      [WriteEv.err .wouldBlock] [[1]] (0, 0) []).1 rfl (by decide)

-- Sanity examples mirroring the source's test vectors (test_parse_segment_table).
example : parse_segment_table [0,0,0,0, 0,0,0,0] [] = (.Done [], [0]) := by decide
example : parse_segment_table [0,0,0,0, 1,0,0,0] [] = (.Done [], [8]) := by decide
example : parse_segment_table [1,0,0,0, 1,0,0,0, 1,0,0,0, 0,0,0,0] [] =
    (.Done [], [8, 8]) := by decide
example : parse_segment_table [2,0,0,0, 1,0,0,0, 1,0,0,0, 0,1,0,0] [] =
    (.Done [], [8, 8, 2048]) := by decide
example : (parse_segment_table [255,1,0,0] []).1 = .Error 512 := by decide
example : (parse_segment_table [0,0,0,0] []).1 = .Incomplete 4 := by decide
example : (parse_segment_table [255,255,255,255] []).1 = .Error 0 := by decide
example : serialize_segment_table [[0]] = [0,0,0,0, 1,0,0,0] := by decide
